import Mathlib

/-!
Verification of the snapshotter repository (src/snapshotter.py).

The retention engine (Task.find_expired_snapshots), the duration parser
(parse_timedelta), the orchestrator rollback (Task.take_snapshot together
with Snapshotter.take_snapshot) and the cleanup driver
(Snapshotter.perform_cleanup) are shallowly embedded below.

Modelling conventions:
- Durations (snapshot ages, rule thresholds, ideal ages) are integers in
  microseconds.  Python's datetime.timedelta is exact at microsecond
  resolution; Python 2 division of a timedelta by an int floors at
  microsecond resolution, which is Int.fdiv here.
- The sort key used on candidate lists is math.fabs of total_seconds, a
  float; it is modelled as the exact absolute difference in microseconds,
  which induces the same ordering for all realistic magnitudes.
- Python's list.sort is stable; it is modelled with List.insertionSort,
  which is stable for the relation "age is at most age", and taking the
  head of the stably sorted candidate list is modelled as marking the
  first candidate that attains the minimal key.
- Filesystem state is a list of directory names; a command is modelled by
  its only observable feature here, whether it exited zero (Bool).
-/

namespace Snapshotter

/-- A snapshot record as built by Task.find_existing_snapshots: directory
name, age (now minus timestamp) in microseconds, and the transient keep
flag that find_expired_snapshots resets and recomputes on every call (in
the Python source the key is absent until first assigned; the reset makes
the incoming value irrelevant). -/
structure SnapK where
  name : String
  age  : Int
  keep : Bool
deriving DecidableEq

/-- A TaskKeepRule: age threshold in microseconds (from parse_timedelta,
hence nonnegative in the real program) and the keep count (int(number)). -/
structure Rule where
  age    : Int
  number : Int
deriving DecidableEq

/-- State threaded through the rule loop of find_expired_snapshots:
the (sorted, flag-carrying) snapshot list, largest_ideal_age and
rule_start. -/
structure EngineState where
  snaps : List SnapK
  L     : Int
  start : Int
deriving DecidableEq

/-- Resetting the transient keep flag (snapshot["keep"] = False). -/
def resetK (s : SnapK) : SnapK := { s with keep := false }

/-- Ordering used by snapshots.sort(key=age). -/
def ageLE (a b : SnapK) : Prop := a.age ≤ b.age

instance : DecidableRel ageLE := fun a b => Int.decLe a.age b.age

instance : IsTotal SnapK ageLE := ⟨fun a b => Int.le_total a.age b.age⟩

instance : IsTrans SnapK ageLE := ⟨fun _ _ _ h h2 => Int.le_trans h h2⟩

/-- The stable ascending-by-age sort at the top of find_expired_snapshots. -/
def sortSnaps (l : List SnapK) : List SnapK := List.insertionSort ageLE l

/-- Membership in the affected list: age < rule threshold and not yet
kept. -/
def isAff (thr : Int) (s : SnapK) : Bool := decide (s.age < thr) && !s.keep

/-- The candidate sort key: distance of the snapshot age from the ideal
age (microseconds, exact). -/
def affKey (ideal : Int) (s : SnapK) : Int := |s.age - ideal|

/-- The minimal candidate key among affected snapshots, if any: the key of
the head of the sorted affected list. -/
def bestKey (thr ideal : Int) : List SnapK → Option Int
  | [] => none
  | s :: l =>
    let r := bestKey thr ideal l
    if isAff thr s then
      some (match r with
            | none => affKey ideal s
            | some k => min (affKey ideal s) k)
    else r

/-- Set keep := true on the first affected snapshot whose key equals k;
with k the minimal key this is exactly snapshots[affected[0][0]]["keep"] =
True after the stable sort of affected. -/
def markFirst (thr ideal k : Int) : List SnapK → List SnapK
  | [] => []
  | s :: l =>
    if isAff thr s && decide (affKey ideal s = k) then
      { s with keep := true } :: l
    else s :: markFirst thr ideal k l

/-- Mark the first snapshot attaining the minimal key among affected
snapshots (no-op when there is no affected snapshot). -/
def markBest (thr ideal : Int) (l : List SnapK) : List SnapK :=
  match bestKey thr ideal l with
  | none => l
  | some k => markFirst thr ideal k l

/-- The ideal age of slot i of a rule whose window begins at start:
delta_t * i + delta_t / 2 + rule_start, with delta_t = (threshold -
rule_start) / number, both divisions flooring as Python 2 timedelta
division does. -/
def idealOf (r : Rule) (start : Int) (i : Nat) : Int :=
  (r.age - start).fdiv r.number * (i : Int)
    + ((r.age - start).fdiv r.number).fdiv 2 + start

/-- One iteration of the inner keep-slot loop (for i in range(0, number)):
if the affected list is nonempty, compute delta_t and the ideal age,
update largest_ideal_age, and keep the nearest affected snapshot. -/
def runSlot (r : Rule) (st : EngineState) (i : Nat) : EngineState :=
  if st.snaps.any (isAff r.age) then
    { snaps := markBest r.age (idealOf r st.start i) st.snaps,
      L := max st.L (idealOf r st.start i), start := st.start }
  else st

/-- One rule of the outer loop: run every slot, then advance rule_start to
this rule's threshold. -/
def runRule (st : EngineState) (r : Rule) : EngineState :=
  let st' := (List.range r.number.toNat).foldl (runSlot r) st
  { st' with start := r.age }

/-- The whole rule loop. -/
def runRules (rules : List Rule) (st : EngineState) : EngineState :=
  rules.foldl runRule st

/-- The safety net: keep every snapshot strictly older than
largest_ideal_age. -/
def applyNet (L : Int) (l : List SnapK) : List SnapK :=
  l.map (fun s => if L < s.age then { s with keep := true } else s)

/-- Initial engine state: snapshots sorted ascending by age with all keep
flags reset; largest_ideal_age and rule_start both zero. -/
def engineBegin (snapshots : List SnapK) : EngineState :=
  { snaps := (sortSnaps snapshots).map resetK, L := 0, start := 0 }

/-- Task.find_expired_snapshots: returns the final (mutated) snapshot list
and the expired sublist (those snapshots still carrying keep = false), in
that order. -/
def find_expired (rules : List Rule) (snapshots : List SnapK) :
    List SnapK × List SnapK :=
  let st := runRules rules (engineBegin snapshots)
  let final := applyNet st.L st.snaps
  (final, final.filter (fun s => !s.keep))

/-! Duration parsing (parse_timedelta).  The regular expression
re.findall applied to the pattern of a digit run followed by a non-digit
run scans the string left to right, skipping characters that start no
match; a trailing digit run with no following non-digit character yields
no match.  The scanner below is that automaton: ftA is searching for a
digit, ftB is inside the digit run, ftC is inside the non-digit run. -/

mutual

/-- Token scanner, searching state. -/
def ftA : List Char → List (List Char × List Char)
  | [] => []
  | c :: cs => if c.isDigit then ftB [c] cs else ftA cs

/-- Token scanner, inside a digit run ds. -/
def ftB (ds : List Char) : List Char → List (List Char × List Char)
  | [] => []
  | c :: cs => if c.isDigit then ftB (ds ++ [c]) cs else ftC ds [c] cs

/-- Token scanner, inside the non-digit run us following the digit run
ds. -/
def ftC (ds us : List Char) : List Char → List (List Char × List Char)
  | [] => [(ds, us)]
  | c :: cs =>
    if c.isDigit then (ds, us) :: ftB [c] cs else ftC ds (us ++ [c]) cs

end

/-- Decimal value of a digit run (int(num)). -/
def numVal (ds : List Char) : Nat :=
  ds.foldl (fun a c => 10 * a + (c.toNat - 48)) 0

/-- Accumulated unit counters (years, months, weeks, days, hours).  A unit
whose lowercased first letter is not one of y, m, w, d, h raises a
KeyError in the Python source, which the bare except re-raises: none. -/
def addUnit (acc : Option (Nat × Nat × Nat × Nat × Nat))
    (tok : List Char × List Char) : Option (Nat × Nat × Nat × Nat × Nat) :=
  match acc with
  | none => none
  | some (y, m, w, d, h) =>
    let n := numVal tok.1
    match (tok.2.headD ' ').toLower with
    | 'y' => some (y + n, m, w, d, h)
    | 'm' => some (y, m + n, w, d, h)
    | 'w' => some (y, m, w + n, d, h)
    | 'd' => some (y, m, w, d + n, h)
    | 'h' => some (y, m, w, d, h + n)
    | _ => none

/-- parse_timedelta, as total microseconds:
timedelta(days = 365y + 30m + d, hours = h, weeks = w). -/
def parse_timedelta_us (s : String) : Option Int :=
  ((ftA s.data).foldl addUnit (some (0, 0, 0, 0, 0))).map
    (fun t =>
      match t with
      | (y, m, w, d, h) =>
        (((((y * 365 + m * 30 + d) + 7 * w) * 86400 + h * 3600) *
          1000000 : Nat) : Int))

/-- Total seconds of a duration given in microseconds (total_seconds is
exact on the whole-second values arising here). -/
def totalSeconds (us : Int) : Int := us.fdiv 1000000

/-! Orchestrator and cleanup driver.  Filesystem state is the list of
snapshot directory names under one task's base path; a command is
represented by whether it exited zero. -/

/-- mkdir_recursive on the new snapshot directory: no-op when a directory
of that name already exists. -/
def mkdirIfAbsent (fs : List String) (name : String) : List String :=
  if name ∈ fs then fs else fs ++ [name]

/-- Snapshotter.take_snapshot for one task, composed with
Task.take_snapshot: create the timestamped directory, run the commands in
order (Task.take_snapshot returns False at the first non-zero exit), and
on failure remove the new directory (shutil.rmtree). -/
def take_snapshot_fs (fs : List String) (newName : String)
    (cmds : List Bool) : List String :=
  let fs2 := mkdirIfAbsent fs newName
  if cmds.all (fun b => b) then fs2 else fs2.erase newName

/-- Deleting the expired snapshots of one task in order.  del says whether
the filesystem permits removing a given directory; shutil.rmtree raising
is not caught anywhere in the source, so the first failure stops the whole
cleanup, returning the name whose removal failed. -/
def deleteAll (del : String → Bool) (fs : List String) :
    List String → List String × Option String
  | [] => (fs, none)
  | n :: rest =>
    if del n then deleteAll del (fs.erase n) rest else (fs, some n)

/-- Snapshotter.perform_cleanup over the task list: each task contributes
its rules and its freshly listed snapshots; an uncaught rmtree error
aborts the remaining tasks as well. -/
def perform_cleanup_run (del : String → Bool) (fs : List String) :
    List (List Rule × List SnapK) → List String × Option String
  | [] => (fs, none)
  | t :: ts =>
    let expired := (find_expired t.1 t.2).2
    match deleteAll del fs (expired.map (fun s => s.name)) with
    | (fs2, none) => perform_cleanup_run del fs2 ts
    | (fs2, some e) => (fs2, some e)

/-! Relations used to reason about the rule loop.  MarksLE says the second
list is the first with possibly more keep flags set (the loop only ever
sets flags).  survQ is the predicate selecting the snapshots that survive
a run whose largest_ideal_age ends at L: marked by the loop or protected
by the safety net.  Sim relates the final snapshot list of a first run, a
mid-run list of that first run, and the corresponding mid-run list of a
second run on the survivors only. -/

/-- Pointwise flag growth: same positions, keep flags only gain. -/
def MarksLE (l l2 : List SnapK) : Prop :=
  List.Forall₂ (fun a b => a.keep = true → b.keep = true) l l2

/-- Survival after a run ending with largest_ideal_age L: kept by the rule
loop, or strictly older than L (safety net). -/
def survQ (L : Int) (f : SnapK) : Prop := f.keep = true ∨ L < f.age

instance (L : Int) : DecidablePred (survQ L) := fun _ =>
  inferInstanceAs (Decidable (_ ∨ _))

/-- Simulation relation: fin is the first run's final (pre-safety-net)
snapshot list, cs a mid-run list of the first run, ds the aligned mid-run
list of the second run; positions whose final snapshot does not survive
are absent from ds, all other positions carry identical entries. -/
inductive Sim (L : Int) : List SnapK → List SnapK → List SnapK → Prop
  | nil : Sim L [] [] []
  | keep {f c : SnapK} {fs cs ds : List SnapK} :
      survQ L f → Sim L fs cs ds → Sim L (f :: fs) (c :: cs) (c :: ds)
  | drop {f c : SnapK} {fs cs ds : List SnapK} :
      ¬ survQ L f → Sim L fs cs ds → Sim L (f :: fs) (c :: cs) ds

end Snapshotter

namespace Snapshotter

/-- With all keep flags reset, the expired list after the safety net is
exactly the sublist of snapshots at most L old. -/
theorem applyNet_reset_filter (L : Int) (l : List SnapK) :
    (applyNet L (l.map resetK)).filter (fun s => !s.keep)
      = (l.map resetK).filter (fun s => decide (s.age ≤ L)) := by
  induction l with
  | nil => rfl
  | cons x xs ih =>
    by_cases h : L < x.age
    · have hnot : ¬ x.age ≤ L := not_le.mpr h
      simp only [List.map_cons, applyNet, resetK, h, if_true,
        List.filter_cons] at *
      simpa [hnot] using ih
    · have hle : x.age ≤ L := not_lt.mp h
      simp only [List.map_cons, applyNet, resetK, h, if_false,
        List.filter_cons] at *
      simpa [hle] using ih

/-- C1 counterexample: with zero rules and snapshots aged one hour and one
day, the code expires neither snapshot (the safety net keeps everything
strictly older than largest_ideal_age, which stays 0), while the claim
asserts both are expired. -/
theorem c1_counterexample :
    (find_expired []
        [⟨"a", 3600000000, false⟩, ⟨"b", 86400000000, false⟩]).2 = [] := by
  decide

/-- C1 (amended): with zero rules, every snapshot with age strictly
greater than 0 is kept by the safety net; the expired list is exactly the
snapshots of age at most 0.  In particular, for snapshots aged one hour
and one day the expired set is empty. -/
theorem c1_zero_rules (xs : List SnapK) :
    (find_expired [] xs).2
      = ((sortSnaps xs).map resetK).filter (fun s => decide (s.age ≤ 0)) := by
  simpa [find_expired, runRules, engineBegin] using
    applyNet_reset_filter 0 (sortSnaps xs)

/-- C2 counterexample: for the rule of threshold one day and keep count 2
on snapshots aged two, ten and twenty hours, the expired set is not the
two-hour snapshot as claimed. -/
theorem c2_counterexample :
    ¬ (((find_expired [⟨86400000000, 2⟩]
          [⟨"s2", 7200000000, false⟩, ⟨"s10", 36000000000, false⟩,
           ⟨"s20", 72000000000, false⟩]).2).map (fun s => s.name)
        = ["s2"]) := by
  decide

/-- C2 (amended): the ideal ages are six and eighteen hours (the final
largest_ideal_age is eighteen hours); at ideal age six hours the two-hour
and ten-hour snapshots are equally near (four hours) and the stable sort
breaks the tie in favour of the first in age order, so the two-hour
snapshot is kept; at eighteen hours the twenty-hour snapshot is kept; the
expired set is exactly the ten-hour snapshot. -/
theorem c2_one_day_rule :
    (((find_expired [⟨86400000000, 2⟩]
        [⟨"s2", 7200000000, false⟩, ⟨"s10", 36000000000, false⟩,
         ⟨"s20", 72000000000, false⟩]).1).filter (fun s => s.keep)).map
          (fun s => s.name) = ["s2", "s20"]
    ∧ ((find_expired [⟨86400000000, 2⟩]
        [⟨"s2", 7200000000, false⟩, ⟨"s10", 36000000000, false⟩,
         ⟨"s20", 72000000000, false⟩]).2).map (fun s => s.name) = ["s10"]
    ∧ (runRules [⟨86400000000, 2⟩]
        (engineBegin
          [⟨"s2", 7200000000, false⟩, ⟨"s10", 36000000000, false⟩,
           ⟨"s20", 72000000000, false⟩])).L = 64800000000 := by
  decide

/-- C6: if some command of the task exits non-zero and the new snapshot's
timestamp name differs from every existing snapshot directory, then after
take_snapshot the new directory is gone and the pre-existing directories
are exactly as before the call. -/
theorem c6_rollback (fs : List String) (newName : String) (cmds : List Bool)
    (hfail : false ∈ cmds) (hfresh : newName ∉ fs) :
    take_snapshot_fs fs newName cmds = fs
      ∧ newName ∉ take_snapshot_fs fs newName cmds := by
  have hall : cmds.all (fun b => b) = false := by
    cases h : cmds.all (fun b => b)
    · rfl
    · exact absurd (List.all_eq_true.mp h false hfail) (by simp)
  have hmk : mkdirIfAbsent fs newName = fs ++ [newName] := by
    simp [mkdirIfAbsent, hfresh]
  have h2 : take_snapshot_fs fs newName cmds = fs := by
    simp only [take_snapshot_fs, hall, hmk, Bool.false_eq_true, if_false]
    rw [List.erase_append_right _ hfresh, List.erase_cons_head,
      List.append_nil]
  refine ⟨h2, ?_⟩
  rw [h2]
  exact hfresh

/-- C6 witness at a concrete input. -/
theorem c6_rollback_witness :
    false ∈ [true, false] ∧ "b" ∉ ["a"]
      ∧ (take_snapshot_fs ["a"] "b" [true, false] = ["a"]
        ∧ "b" ∉ take_snapshot_fs ["a"] "b" [true, false]) :=
  ⟨by decide, by decide, c6_rollback ["a"] "b" [true, false]
    (by decide) (by decide)⟩

/-- C7 counterexample: when the filesystem denies removal of the first
task's expired snapshot, perform_cleanup aborts with that error (nothing
catches the rmtree failure in the source) and the second task's expired
snapshot is left unprocessed, while the claim asserts the run continues
with the remaining snapshots and tasks. -/
theorem c7_counterexample :
    (perform_cleanup_run (fun n => !(n == "bad"))
        ["old1", "bad", "old2", "bad2"]
        [([⟨86400000000, 1⟩],
          [⟨"bad", 0, false⟩, ⟨"old1", 39600000000, false⟩]),
         ([⟨86400000000, 1⟩],
          [⟨"bad2", 0, false⟩, ⟨"old2", 39600000000, false⟩])]).2
      = some "bad"
    ∧ "bad2" ∈ (perform_cleanup_run (fun n => !(n == "bad"))
        ["old1", "bad", "old2", "bad2"]
        [([⟨86400000000, 1⟩],
          [⟨"bad", 0, false⟩, ⟨"old1", 39600000000, false⟩]),
         ([⟨86400000000, 1⟩],
          [⟨"bad2", 0, false⟩, ⟨"old2", 39600000000, false⟩])]).1 := by
  decide

/-- C7 (amended): a denied removal is not caught anywhere: when deleting
the first expired snapshot of the first task fails, perform_cleanup stops
at once with that error, the undeletable directory and every other listed
directory are left in place, and the remaining expired snapshots and the
remaining tasks are not processed. -/
theorem c7_deletion_error_aborts (del : String → Bool) (fs : List String)
    (rules : List Rule) (snaps : List SnapK)
    (ts : List (List Rule × List SnapK)) (e : String) (rest : List String)
    (hexp : ((find_expired rules snaps).2).map (fun s => s.name) = e :: rest)
    (hfail : del e = false) :
    perform_cleanup_run del fs ((rules, snaps) :: ts) = (fs, some e) := by
  simp [perform_cleanup_run, hexp, deleteAll, hfail]

/-- C7 witness at a concrete input. -/
theorem c7_deletion_error_aborts_witness :
    ((find_expired [⟨86400000000, 1⟩]
        [⟨"bad", 0, false⟩, ⟨"old1", 39600000000, false⟩]).2).map
          (fun s => s.name) = ["bad"]
    ∧ (fun n => !(n == "bad")) "bad" = false
    ∧ perform_cleanup_run (fun n => !(n == "bad"))
        ["old1", "bad", "old2", "bad2"]
        [([⟨86400000000, 1⟩],
          [⟨"bad", 0, false⟩, ⟨"old1", 39600000000, false⟩]),
         ([⟨86400000000, 1⟩],
          [⟨"bad2", 0, false⟩, ⟨"old2", 39600000000, false⟩])]
      = (["old1", "bad", "old2", "bad2"], some "bad") :=
  ⟨by decide, by decide,
    c7_deletion_error_aborts (fun n => !(n == "bad"))
      ["old1", "bad", "old2", "bad2"] [⟨86400000000, 1⟩]
      [⟨"bad", 0, false⟩, ⟨"old1", 39600000000, false⟩]
      [([⟨86400000000, 1⟩],
        [⟨"bad2", 0, false⟩, ⟨"old2", 39600000000, false⟩])]
      "bad" [] (by decide) (by decide)⟩

/-- C9 counterexample: one week parses to 604800 total seconds, the same
as seven days, so multiplying the former by seven does not give the
latter. -/
theorem c9_counterexample :
    ¬ ((parse_timedelta_us "1w").map (fun x => 7 * totalSeconds x)
        = (parse_timedelta_us "7d").map totalSeconds) := by
  decide

/-- C9 (amended): parsing one week and parsing seven days give the same
total duration in seconds (week = 7 days, day = 24 hours, no scaling
needed). -/
theorem c9_week_equals_seven_days :
    (parse_timedelta_us "1w").map totalSeconds
      = (parse_timedelta_us "7d").map totalSeconds := by
  decide

/-- A list with no affected snapshot has no minimal key. -/
theorem bestKey_none {thr ideal : Int} :
    ∀ {l : List SnapK}, bestKey thr ideal l = none →
      ∀ s ∈ l, isAff thr s = false := by
  intro l
  induction l with
  | nil => intro _ s hs; exact absurd hs (List.not_mem_nil s)
  | cons x xs ih =>
    intro h s hs
    by_cases ha : isAff thr x = true
    · exfalso
      cases hr : bestKey thr ideal xs <;> simp [bestKey, hr, ha] at h
    · have hx : isAff thr x = false := Bool.eq_false_iff.mpr ha
      have ht : bestKey thr ideal xs = none := by
        simpa [bestKey, hx] using h
      rcases List.mem_cons.mp hs with rfl | hs2
      · exact hx
      · exact ih ht s hs2

/-- An affected snapshot forces a minimal key to exist. -/
theorem bestKey_isSome_of_aff {thr ideal : Int} :
    ∀ {l : List SnapK} {s : SnapK}, s ∈ l → isAff thr s = true →
      ∃ k, bestKey thr ideal l = some k := by
  intro l s hs ha
  cases hr : bestKey thr ideal l with
  | none => exact absurd (bestKey_none hr s hs) (by simp [ha])
  | some k => exact ⟨k, rfl⟩

/-- The minimal key, when it exists, is attained by some affected
snapshot. -/
theorem bestKey_mem {thr ideal : Int} :
    ∀ {l : List SnapK} {k : Int}, bestKey thr ideal l = some k →
      ∃ s ∈ l, isAff thr s = true ∧ affKey ideal s = k := by
  intro l
  induction l with
  | nil => intro k h; simp [bestKey] at h
  | cons x xs ih =>
    intro k h
    by_cases ha : isAff thr x = true
    · cases hr : bestKey thr ideal xs with
      | none =>
        have hk : affKey ideal x = k := by simpa [bestKey, hr, ha] using h
        exact ⟨x, List.mem_cons_self _ _, ha, hk⟩
      | some k2 =>
        have hk : min (affKey ideal x) k2 = k := by
          simpa [bestKey, hr, ha] using h
        by_cases hle : affKey ideal x ≤ k2
        · refine ⟨x, List.mem_cons_self _ _, ha, ?_⟩
          rw [min_eq_left hle] at hk
          exact hk
        · obtain ⟨t, ht, ht2, ht3⟩ := ih hr
          refine ⟨t, List.mem_cons_of_mem _ ht, ht2, ?_⟩
          push_neg at hle
          rw [min_eq_right hle.le] at hk
          omega
    · have hx : isAff thr x = false := Bool.eq_false_iff.mpr ha
      have ht : bestKey thr ideal xs = some k := by
        simpa [bestKey, hx] using h
      obtain ⟨t, htm, ht2, ht3⟩ := ih ht
      exact ⟨t, List.mem_cons_of_mem _ htm, ht2, ht3⟩

/-- The minimal key is a lower bound on the key of every affected
snapshot. -/
theorem bestKey_le {thr ideal : Int} :
    ∀ {l : List SnapK} {k : Int}, bestKey thr ideal l = some k →
      ∀ s ∈ l, isAff thr s = true → k ≤ affKey ideal s := by
  intro l
  induction l with
  | nil => intro k _ s hs; exact absurd hs (List.not_mem_nil s)
  | cons x xs ih =>
    intro k h s hs hsa
    by_cases ha : isAff thr x = true
    · cases hr : bestKey thr ideal xs with
      | none =>
        have hk : affKey ideal x = k := by simpa [bestKey, hr, ha] using h
        rcases List.mem_cons.mp hs with rfl | hs2
        · omega
        · exact absurd (bestKey_none hr s hs2) (by simp [hsa])
      | some k2 =>
        have hk : min (affKey ideal x) k2 = k := by
          simpa [bestKey, hr, ha] using h
        rcases List.mem_cons.mp hs with rfl | hs2
        · have := min_le_left (affKey ideal s) k2
          omega
        · have h2 := ih hr s hs2 hsa
          have := min_le_right (affKey ideal x) k2
          omega
    · have hx : isAff thr x = false := Bool.eq_false_iff.mpr ha
      have ht : bestKey thr ideal xs = some k := by
        simpa [bestKey, hx] using h
      rcases List.mem_cons.mp hs with rfl | hs2
      · exact absurd hsa (by simp [hx])
      · exact ih ht s hs2 hsa

/-- Completeness: a value attained by some affected snapshot and below
every affected key is the minimal key. -/
theorem bestKey_eq_some {thr ideal k : Int} :
    ∀ {l : List SnapK},
      (∃ s ∈ l, isAff thr s = true ∧ affKey ideal s = k) →
      (∀ s ∈ l, isAff thr s = true → k ≤ affKey ideal s) →
      bestKey thr ideal l = some k := by
  intro l
  induction l with
  | nil => rintro ⟨s, hs, _⟩ _; exact absurd hs (List.not_mem_nil s)
  | cons x xs ih =>
    rintro ⟨s, hs, hsa, hsk⟩ hmin
    by_cases ha : isAff thr x = true
    · have hkx : k ≤ affKey ideal x := hmin x (List.mem_cons_self _ _) ha
      cases hr : bestKey thr ideal xs with
      | none =>
        have hsx : s = x := by
          rcases List.mem_cons.mp hs with rfl | hs2
          · rfl
          · exact absurd (bestKey_none hr s hs2) (by simp [hsa])
        subst hsx
        simp [bestKey, hr, ha, hsk]
      | some k2 =>
        have hk2 : k ≤ k2 := by
          obtain ⟨t, htm, ht2, ht3⟩ := bestKey_mem hr
          have := hmin t (List.mem_cons_of_mem _ htm) ht2
          omega
        have hmink : min (affKey ideal x) k2 = k := by
          rcases List.mem_cons.mp hs with rfl | hs2
          · rw [min_eq_left (hsk ▸ hk2)]
            exact hsk
          · have h2 := bestKey_le hr s hs2 hsa
            have : k2 = k := by omega
            subst this
            exact min_eq_right hkx
        simp [bestKey, hr, ha, hmink]
    · have hx : isAff thr x = false := Bool.eq_false_iff.mpr ha
      have hs2 : s ∈ xs := by
        rcases List.mem_cons.mp hs with rfl | hs2
        · exact absurd hsa (by simp [hx])
        · exact hs2
      have := ih ⟨s, hs2, hsa, hsk⟩
        (fun t htm hta => hmin t (List.mem_cons_of_mem _ htm) hta)
      simpa [bestKey, hx] using this

/-- Marking the first affected snapshot of key k raises the kept count by
exactly one, provided such a snapshot exists. -/
theorem countP_keep_markFirst {thr ideal k : Int} :
    ∀ {l : List SnapK},
      (∃ s ∈ l, isAff thr s = true ∧ affKey ideal s = k) →
      (markFirst thr ideal k l).countP (fun s => s.keep)
        = l.countP (fun s => s.keep) + 1 := by
  intro l
  induction l with
  | nil => rintro ⟨s, hs, _⟩; exact absurd hs (List.not_mem_nil s)
  | cons x xs ih =>
    rintro ⟨s, hs, hsa, hsk⟩
    by_cases hc : (isAff thr x && decide (affKey ideal x = k)) = true
    · have hc2 : isAff thr x = true ∧ affKey ideal x = k := by
        simpa using hc
      have hxk : x.keep = false := by
        have h2 := hc2.1
        unfold isAff at h2
        simp only [Bool.and_eq_true, Bool.not_eq_eq_eq_not, Bool.not_true]
          at h2
        exact h2.2
      simp [markFirst, hc, List.countP_cons, hxk]
    · have hmf : markFirst thr ideal k (x :: xs)
          = x :: markFirst thr ideal k xs := by
        simp [markFirst, hc]
      have hs2 : s ∈ xs := by
        rcases List.mem_cons.mp hs with rfl | hs2
        · exact absurd (by simp [hsa, hsk]) hc
        · exact hs2
      rw [hmf, List.countP_cons, List.countP_cons, ih ⟨s, hs2, hsa, hsk⟩]
      omega

/-- Marking the first affected snapshot preserves the invariant that every
kept snapshot is younger than the threshold. -/
theorem markFirst_keep_young {thr ideal k : Int} :
    ∀ {l : List SnapK},
      (∀ s ∈ l, s.keep = true → s.age < thr) →
      ∀ s ∈ markFirst thr ideal k l, s.keep = true → s.age < thr := by
  intro l
  induction l with
  | nil => intro _ s hs; exact absurd hs (List.not_mem_nil s)
  | cons x xs ih =>
    intro hky s hs
    by_cases hc : (isAff thr x && decide (affKey ideal x = k)) = true
    · rw [markFirst, if_pos hc] at hs
      rcases List.mem_cons.mp hs with rfl | hs2
      · intro _
        have hc2 : isAff thr x = true ∧ affKey ideal x = k := by
          simpa using hc
        have h2 := hc2.1
        unfold isAff at h2
        simp only [Bool.and_eq_true, decide_eq_true_eq] at h2
        exact h2.1
      · exact hky s (List.mem_cons_of_mem _ hs2)
    · rw [markFirst, if_neg hc] at hs
      rcases List.mem_cons.mp hs with rfl | hs2
      · exact hky s (List.mem_cons_self _ _)
      · exact ih (fun t ht => hky t (List.mem_cons_of_mem _ ht)) s hs2

/-- Marking changes no ages: any count of an age-only predicate is
unchanged by markFirst. -/
theorem countP_age_markFirst {thr ideal k A : Int} :
    ∀ {l : List SnapK},
      (markFirst thr ideal k l).countP (fun s => decide (s.age < A))
        = l.countP (fun s => decide (s.age < A)) := by
  intro l
  induction l with
  | nil => rfl
  | cons x xs ih =>
    by_cases hc : (isAff thr x && decide (affKey ideal x = k)) = true
    · simp [markFirst, hc, List.countP_cons]
    · simp [markFirst, hc, List.countP_cons, ih]

/-- One slot of the inner loop: kept snapshots stay younger than the
threshold, the young count is unchanged, the kept count grows by at most
one, and grows by exactly one whenever fewer snapshots are kept than are
younger than the threshold. -/
theorem runSlot_count (r : Rule) (st : EngineState) (i : Nat)
    (hky : ∀ s ∈ st.snaps, s.keep = true → s.age < r.age) :
    (∀ s ∈ (runSlot r st i).snaps, s.keep = true → s.age < r.age)
    ∧ (runSlot r st i).snaps.countP (fun s => decide (s.age < r.age))
        = st.snaps.countP (fun s => decide (s.age < r.age))
    ∧ (runSlot r st i).snaps.countP (fun s => s.keep)
        ≤ st.snaps.countP (fun s => s.keep) + 1
    ∧ (st.snaps.countP (fun s => s.keep)
          < st.snaps.countP (fun s => decide (s.age < r.age)) →
        (runSlot r st i).snaps.countP (fun s => s.keep)
          = st.snaps.countP (fun s => s.keep) + 1) := by
  by_cases hany : st.snaps.any (isAff r.age) = true
  · obtain ⟨s0, hs0, hs0a⟩ := List.any_eq_true.mp hany
    cases hk : bestKey r.age (idealOf r st.start i) st.snaps with
    | none => exact absurd (bestKey_none hk s0 hs0) (by simp [hs0a])
    | some k =>
      have hsnaps : (runSlot r st i).snaps
          = markFirst r.age (idealOf r st.start i) k st.snaps := by
        simp [runSlot, hany, markBest, hk]
      obtain ⟨t, htm, ht2, ht3⟩ := bestKey_mem hk
      rw [hsnaps]
      refine ⟨markFirst_keep_young hky, countP_age_markFirst, ?_, ?_⟩
      · rw [countP_keep_markFirst ⟨t, htm, ht2, ht3⟩]
      · intro _
        exact countP_keep_markFirst ⟨t, htm, ht2, ht3⟩
  · have hsnaps : (runSlot r st i).snaps = st.snaps := by
      simp [runSlot, hany]
    rw [hsnaps]
    refine ⟨hky, rfl, by omega, ?_⟩
    intro hlt
    have hall : ∀ s ∈ st.snaps, decide (s.age < r.age) = true →
        s.keep = true := by
      intro s hs hy
      have h2 : ¬ isAff r.age s = true := by
        intro hcon
        exact hany (List.any_eq_true.mpr ⟨s, hs, hcon⟩)
      unfold isAff at h2
      rw [hy] at h2
      simpa using h2
    have hmono : st.snaps.countP (fun s => decide (s.age < r.age))
        ≤ st.snaps.countP (fun s => s.keep) :=
      List.countP_mono_left hall
    omega

/-- Folding any list of slots: kept snapshots stay younger than the
threshold, the young count is unchanged, the kept count grows by at most
the number of slots, and by exactly that number when enough young
snapshots are available. -/
theorem slots_count (r : Rule) :
    ∀ (is : List Nat) (st : EngineState),
      (∀ s ∈ st.snaps, s.keep = true → s.age < r.age) →
      (∀ s ∈ (is.foldl (runSlot r) st).snaps, s.keep = true →
          s.age < r.age)
      ∧ (is.foldl (runSlot r) st).snaps.countP
            (fun s => decide (s.age < r.age))
          = st.snaps.countP (fun s => decide (s.age < r.age))
      ∧ (is.foldl (runSlot r) st).snaps.countP (fun s => s.keep)
          ≤ st.snaps.countP (fun s => s.keep) + is.length
      ∧ (st.snaps.countP (fun s => s.keep) + is.length
            ≤ st.snaps.countP (fun s => decide (s.age < r.age)) →
          (is.foldl (runSlot r) st).snaps.countP (fun s => s.keep)
            = st.snaps.countP (fun s => s.keep) + is.length) := by
  intro is
  induction is with
  | nil => exact fun st hky => ⟨hky, rfl, by simp, by intro _; simp⟩
  | cons i is ih =>
    intro st hky
    obtain ⟨h1, h2, h3, h4⟩ := runSlot_count r st i hky
    obtain ⟨g1, g2, g3, g4⟩ := ih (runSlot r st i) h1
    refine ⟨g1, by rw [List.foldl_cons] at *; omega, ?_, ?_⟩
    · rw [List.foldl_cons] at *
      simp only [List.length_cons]
      omega
    · intro hava
      simp only [List.length_cons] at hava
      have hlt : st.snaps.countP (fun s => s.keep)
          < st.snaps.countP (fun s => decide (s.age < r.age)) := by omega
      have h5 := h4 hlt
      have g5 := g4 (by rw [h5, h2]; omega)
      rw [List.foldl_cons] at *
      simp only [List.length_cons]
      omega

/-- The kept count of snapshots carrying the reset flag is zero. -/
theorem countP_keep_reset (l : List SnapK) :
    (l.map resetK).countP (fun s => s.keep) = 0 := by
  rw [List.countP_eq_zero]
  intro s hs
  obtain ⟨t, _, rfl⟩ := List.mem_map.mp hs
  simp [resetK]

/-- Sorting and resetting do not change the number of snapshots younger
than a bound. -/
theorem countP_young_engineBegin (A : Int) (xs : List SnapK) :
    (engineBegin xs).snaps.countP (fun s => decide (s.age < A))
      = xs.countP (fun s => decide (s.age < A)) := by
  unfold engineBegin sortSnaps
  rw [List.countP_map]
  have hperm : List.Perm (List.insertionSort ageLE xs) xs :=
    List.perm_insertionSort ageLE xs
  rw [hperm.countP_eq]
  apply List.countP_congr
  intro s _
  simp [resetK]

/-- The safety net can only increase the count of kept-and-young
snapshots. -/
theorem countP_keepYoung_applyNet (L A : Int) :
    ∀ (l : List SnapK),
      l.countP (fun s => s.keep && decide (s.age < A))
        ≤ (applyNet L l).countP (fun s => s.keep && decide (s.age < A)) := by
  intro l
  induction l with
  | nil => simp [applyNet]
  | cons x xs ih =>
    have hstep : applyNet L (x :: xs)
        = (if L < x.age then { x with keep := true } else x)
          :: applyNet L xs := rfl
    rw [hstep, List.countP_cons, List.countP_cons]
    by_cases h : L < x.age
    · rw [if_pos h]
      cases hxk : x.keep <;> cases hy : decide (x.age < A) <;>
        simp [hxk, hy] <;> omega
    · rw [if_neg h]
      omega

/-- C5: for a single rule of threshold A and keep count K, if at least K
snapshots are younger than A then after find_expired at least K snapshots
that are both kept and younger than A exist in the final list, and the
rule loop itself (before the safety net) marks at most K snapshots. -/
theorem c5_keep_count (A : Int) (K : Nat) (xs : List SnapK)
    (hcount : K ≤ xs.countP (fun s => decide (s.age < A))) :
    K ≤ ((find_expired [⟨A, (K : Int)⟩] xs).1).countP
          (fun s => s.keep && decide (s.age < A))
    ∧ ((runRules [⟨A, (K : Int)⟩] (engineBegin xs)).snaps).countP
          (fun s => s.keep) ≤ K := by
  have hky : ∀ s ∈ (engineBegin xs).snaps, s.keep = true →
      s.age < (⟨A, (K : Int)⟩ : Rule).age := by
    intro s hs hk
    exfalso
    unfold engineBegin at hs
    obtain ⟨t, _, rfl⟩ := List.mem_map.mp hs
    simp [resetK] at hk
  have hrng : ((⟨A, (K : Int)⟩ : Rule).number).toNat = K := by
    simp
  obtain ⟨f1, f2, f3, f4⟩ := slots_count ⟨A, (K : Int)⟩
    (List.range K) (engineBegin xs) hky
  have e1 : ((⟨A, (K : Int)⟩ : Rule)).age = A := rfl
  rw [e1] at f1 f2 f4
  have hlen : (List.range K).length = K := List.length_range K
  have hsnaps : (runRules [⟨A, (K : Int)⟩] (engineBegin xs)).snaps
      = ((List.range K).foldl (runSlot ⟨A, (K : Int)⟩)
          (engineBegin xs)).snaps := by
    simp [runRules, runRule, hrng]
  have hk0 : (engineBegin xs).snaps.countP (fun s => s.keep) = 0 :=
    countP_keep_reset (sortSnaps xs)
  have hyc := countP_young_engineBegin A xs
  have hexact : ((List.range K).foldl (runSlot ⟨A, (K : Int)⟩)
      (engineBegin xs)).snaps.countP (fun s => s.keep) = K := by
    have := f4 (by omega)
    omega
  constructor
  · have hcg : ((List.range K).foldl (runSlot ⟨A, (K : Int)⟩)
        (engineBegin xs)).snaps.countP (fun s => s.keep)
        = ((List.range K).foldl (runSlot ⟨A, (K : Int)⟩)
            (engineBegin xs)).snaps.countP
              (fun s => s.keep && decide (s.age < A)) := by
      apply List.countP_congr
      intro s hs
      cases hsk : s.keep
      · simp
      · simp only [Bool.true_and]
        have := f1 s hs hsk
        simp [this]
    have hnet := countP_keepYoung_applyNet
      (runRules [⟨A, (K : Int)⟩] (engineBegin xs)).L A
      ((runRules [⟨A, (K : Int)⟩] (engineBegin xs)).snaps)
    have hfinal : (find_expired [⟨A, (K : Int)⟩] xs).1
        = applyNet (runRules [⟨A, (K : Int)⟩] (engineBegin xs)).L
            (runRules [⟨A, (K : Int)⟩] (engineBegin xs)).snaps := rfl
    rw [hfinal]
    rw [hsnaps] at hnet ⊢
    omega
  · rw [hsnaps]
    omega

/-- C5 witness at a concrete input. -/
theorem c5_keep_count_witness :
    (2 : Nat) ≤ ([⟨"s2", 7200000000, false⟩, ⟨"s10", 36000000000, false⟩,
        ⟨"s20", 72000000000, false⟩] : List SnapK).countP
          (fun s => decide (s.age < 86400000000))
    ∧ ((2 : Nat) ≤ ((find_expired [⟨86400000000, (2 : Nat)⟩]
          [⟨"s2", 7200000000, false⟩, ⟨"s10", 36000000000, false⟩,
           ⟨"s20", 72000000000, false⟩]).1).countP
            (fun s => s.keep && decide (s.age < 86400000000))
      ∧ ((runRules [⟨86400000000, (2 : Nat)⟩]
          (engineBegin
            [⟨"s2", 7200000000, false⟩, ⟨"s10", 36000000000, false⟩,
             ⟨"s20", 72000000000, false⟩])).snaps).countP
            (fun s => s.keep) ≤ 2) :=
  ⟨by decide,
    c5_keep_count 86400000000 2
      [⟨"s2", 7200000000, false⟩, ⟨"s10", 36000000000, false⟩,
       ⟨"s20", 72000000000, false⟩] (by decide)⟩

/-- Every expired snapshot is at most largest_ideal_age old: the safety
net has marked everything strictly older. -/
theorem expired_age_le_L (rules : List Rule) (xs : List SnapK) (s : SnapK)
    (hmem : s ∈ (find_expired rules xs).2) :
    s.age ≤ (runRules rules (engineBegin xs)).L := by
  have h1 : s ∈ (applyNet (runRules rules (engineBegin xs)).L
      (runRules rules (engineBegin xs)).snaps).filter (fun s => !s.keep) := by
    simpa [find_expired] using hmem
  rw [List.mem_filter] at h1
  obtain ⟨hmem2, hkeep⟩ := h1
  simp only [applyNet, List.mem_map] at hmem2
  obtain ⟨t, _, ht⟩ := hmem2
  by_cases h : (runRules rules (engineBegin xs)).L < t.age
  · rw [if_pos h] at ht
    rw [← ht] at hkeep
    simp at hkeep
  · rw [if_neg h] at ht
    rw [← ht]
    exact not_lt.mp h

/-- The ideal age of any slot stays strictly below any strict upper bound
of both rule_start and the rule's threshold. -/
theorem ideal_lt {a start thr n : Int} (hn : 0 < n) (hstart : start < a)
    (hthr : thr < a) {i : Int} (hi0 : 0 ≤ i) (hi : i < n) :
    (thr - start).fdiv n * i + ((thr - start).fdiv n).fdiv 2 + start < a := by
  have hfd : n * ((thr - start).fdiv n) + (thr - start).fmod n = thr - start :=
    Int.fdiv_add_fmod _ _
  have hfm : 0 ≤ (thr - start).fmod n := Int.fmod_nonneg' _ hn
  have hhalf : 2 * (((thr - start).fdiv n).fdiv 2)
      + ((thr - start).fdiv n).fmod 2 = (thr - start).fdiv n :=
    Int.fdiv_add_fmod _ _
  have hhm : 0 ≤ ((thr - start).fdiv n).fmod 2 :=
    Int.fmod_nonneg' _ (by omega)
  set delta := (thr - start).fdiv n with hdelta
  by_cases h : delta < 0
  · have h1 : delta * i ≤ 0 :=
      mul_nonpos_iff.mpr (Or.inr ⟨h.le, hi0⟩)
    have h2 : delta.fdiv 2 ≤ 0 := by omega
    omega
  · push_neg at h
    have h1 : delta * i ≤ delta * (n - 1) :=
      mul_le_mul_of_nonneg_left (by omega) h
    have h2 : delta * (n - 1) = delta * n - delta := by ring
    have h3 : n * delta = delta * n := mul_comm _ _
    have h4 : delta.fdiv 2 ≤ delta := by omega
    omega

/-- Both largest_ideal_age and rule_start stay strictly below any strict
upper bound of all thresholds through the slots of one rule. -/
theorem slots_L_lt {a : Int} {r : Rule} (hthr : r.age < a) :
    ∀ (is : List Nat), (∀ i ∈ is, i < r.number.toNat) →
      ∀ st : EngineState, st.L < a → st.start < a →
        (is.foldl (runSlot r) st).L < a
          ∧ (is.foldl (runSlot r) st).start < a := by
  intro is
  induction is with
  | nil => exact fun _ st hL hs => ⟨hL, hs⟩
  | cons i is ih =>
    intro hmem st hL hs
    have hi : i < r.number.toNat := hmem i (List.mem_cons_self _ _)
    have hstep : (runSlot r st i).L < a ∧ (runSlot r st i).start < a := by
      unfold runSlot
      by_cases hany : st.snaps.any (isAff r.age) = true
      · simp only [hany, if_true]
        refine ⟨?_, hs⟩
        have hideal : idealOf r st.start i < a := by
          unfold idealOf
          exact ideal_lt (by omega) hs hthr (by omega) (by omega)
        exact max_lt hL hideal
      · simp only [hany, if_false]
        exact ⟨hL, hs⟩
    exact ih (fun j hj => hmem j (List.mem_cons_of_mem _ hj)) _ hstep.1
      hstep.2

/-- Both largest_ideal_age and rule_start stay strictly below any strict
upper bound of all thresholds through the whole rule loop. -/
theorem runRules_L_lt {a : Int} (rules : List Rule)
    (hr : ∀ r ∈ rules, r.age < a) :
    ∀ st : EngineState, st.L < a → st.start < a →
      (runRules rules st).L < a ∧ (runRules rules st).start < a := by
  induction rules with
  | nil => exact fun st hL hs => ⟨hL, hs⟩
  | cons r rs ih =>
    intro st hL hs
    have hra : r.age < a := hr r (List.mem_cons_self _ _)
    have hslots := slots_L_lt hra (List.range r.number.toNat)
      (fun i hi => List.mem_range.mp hi) st hL hs
    have hrule : (runRule st r).L < a ∧ (runRule st r).start < a := by
      unfold runRule
      exact ⟨hslots.1, hra⟩
    exact ih (fun r2 h2 => hr r2 (List.mem_cons_of_mem _ h2)) _ hrule.1
      hrule.2

/-- C4 counterexample: with an empty rule list (so that the claim's
hypothesis that the snapshot is older than every threshold holds
vacuously) a snapshot of age exactly 0 is expired, not kept. -/
theorem c4_counterexample :
    (⟨"z", 0, false⟩ : SnapK) ∈ (find_expired [] [⟨"z", 0, false⟩]).2 := by
  decide

/-- C4 (amended): every snapshot of positive age that is strictly older
than every rule's threshold is absent from the expired set (positivity is
automatic whenever at least one rule exists, thresholds being
nonnegative, but is needed for the degenerate empty rule list). -/
theorem c4_safety_net (rules : List Rule) (xs : List SnapK) (s : SnapK)
    (hpos : 0 < s.age) (hthr : ∀ r ∈ rules, r.age < s.age) :
    s ∉ (find_expired rules xs).2 := by
  intro hmem
  have h1 := expired_age_le_L rules xs s hmem
  have h2 := (runRules_L_lt rules hthr (engineBegin xs)
    (by simpa [engineBegin] using hpos)
    (by simpa [engineBegin] using hpos)).1
  omega

/-- C4 witness at a concrete input. -/
theorem c4_safety_net_witness :
    (0 : Int) < 7200000000
    ∧ (∀ r ∈ [(⟨3600000000, 1⟩ : Rule)], r.age < 7200000000)
    ∧ (⟨"x", 7200000000, false⟩ : SnapK)
        ∉ (find_expired [⟨3600000000, 1⟩]
            [⟨"x", 7200000000, false⟩]).2 :=
  ⟨by decide, by decide,
    c4_safety_net [⟨3600000000, 1⟩] [⟨"x", 7200000000, false⟩]
      ⟨"x", 7200000000, false⟩ (by decide) (by decide)⟩

/-- Marking changes no names or ages: resetting the flags afterwards
recovers the reset original. -/
theorem markFirst_map_reset {thr ideal k : Int} :
    ∀ {l : List SnapK},
      (markFirst thr ideal k l).map resetK = l.map resetK := by
  intro l
  induction l with
  | nil => rfl
  | cons x xs ih =>
    by_cases hc : (isAff thr x && decide (affKey ideal x = k)) = true
    · simp [markFirst, hc, resetK]
    · simp [markFirst, hc, resetK, ih]

/-- markBest likewise only touches keep flags. -/
theorem markBest_map_reset {thr ideal : Int} (l : List SnapK) :
    (markBest thr ideal l).map resetK = l.map resetK := by
  unfold markBest
  cases bestKey thr ideal l with
  | none => rfl
  | some k => exact markFirst_map_reset

/-- One slot only touches keep flags. -/
theorem runSlot_map_reset (r : Rule) (st : EngineState) (i : Nat) :
    ((runSlot r st i).snaps).map resetK = st.snaps.map resetK := by
  unfold runSlot
  by_cases hany : st.snaps.any (isAff r.age) = true
  · simp only [hany, if_true]
    exact markBest_map_reset _
  · simp [hany]

/-- The whole rule loop only touches keep flags. -/
theorem runRules_map_reset (rules : List Rule) :
    ∀ st : EngineState,
      ((runRules rules st).snaps).map resetK = st.snaps.map resetK := by
  induction rules with
  | nil => exact fun st => rfl
  | cons r rs ih =>
    intro st
    have hrule : ((runRule st r).snaps).map resetK
        = st.snaps.map resetK := by
      unfold runRule
      have hslots : ∀ (is : List Nat) (st2 : EngineState),
          ((is.foldl (runSlot r) st2).snaps).map resetK
            = st2.snaps.map resetK := by
        intro is
        induction is with
        | nil => exact fun st2 => rfl
        | cons i is ih2 =>
          intro st2
          rw [List.foldl_cons, ih2, runSlot_map_reset]
      exact hslots _ st
    rw [runRules, List.foldl_cons]
    have := ih (runRule st r)
    rw [runRules] at this
    rw [this, hrule]

/-- The safety net only touches keep flags. -/
theorem applyNet_map_reset (L : Int) (l : List SnapK) :
    (applyNet L l).map resetK = l.map resetK := by
  induction l with
  | nil => rfl
  | cons x xs ih =>
    have hstep : applyNet L (x :: xs)
        = (if L < x.age then { x with keep := true } else x)
          :: applyNet L xs := rfl
    rw [hstep]
    by_cases h : L < x.age <;> simp [h, resetK, ih]

/-- Resetting twice is resetting once. -/
theorem map_reset_idem (l : List SnapK) :
    (l.map resetK).map resetK = l.map resetK := by
  rw [List.map_map]
  have : (resetK ∘ resetK) = resetK := funext fun s => rfl
  rw [this]

/-- Lists that agree after a flag reset have the same ages. -/
theorem map_age_of_map_reset {l l2 : List SnapK}
    (h : l.map resetK = l2.map resetK) :
    l.map (fun s => s.age) = l2.map (fun s => s.age) := by
  have hc : ((fun s : SnapK => s.age) ∘ resetK)
      = fun s : SnapK => s.age := funext fun s => rfl
  calc l.map (fun s => s.age)
      = (l.map resetK).map (fun s => s.age) := by rw [List.map_map, hc]
    _ = (l2.map resetK).map (fun s => s.age) := by rw [h]
    _ = l2.map (fun s => s.age) := by rw [List.map_map, hc]

/-- Sortedness by age transfers along age-list equality. -/
theorem sorted_of_map_age {l l2 : List SnapK}
    (h : l.map (fun s => s.age) = l2.map (fun s => s.age))
    (hs : List.Sorted ageLE l) : List.Sorted ageLE l2 := by
  have h1 : List.Pairwise (fun a b : Int => a ≤ b)
      (l.map (fun s => s.age)) := by
    rw [List.pairwise_map]
    exact hs
  rw [h, List.pairwise_map] at h1
  exact h1

/-- The final list returned by find_expired reduces, after a flag reset,
to the sorted-and-reset input: only keep flags were changed. -/
theorem find_expired_map_reset (rules : List Rule) (xs : List SnapK) :
    ((find_expired rules xs).1).map resetK = (engineBegin xs).snaps := by
  have h1 : (find_expired rules xs).1
      = applyNet (runRules rules (engineBegin xs)).L
          (runRules rules (engineBegin xs)).snaps := rfl
  rw [h1, applyNet_map_reset, runRules_map_reset]
  unfold engineBegin
  exact map_reset_idem _

/-- The final list returned by find_expired is sorted ascending by age. -/
theorem find_expired_sorted (rules : List Rule) (xs : List SnapK) :
    List.Sorted ageLE ((find_expired rules xs).1) := by
  have hs0 : List.Sorted ageLE (engineBegin xs).snaps := by
    have hs1 : List.Sorted ageLE (sortSnaps xs) :=
      List.sorted_insertionSort ageLE xs
    apply sorted_of_map_age ?_ hs1
    apply map_age_of_map_reset
    unfold engineBegin
    exact (map_reset_idem _).symm
  apply sorted_of_map_age ?_ hs0
  apply map_age_of_map_reset
  rw [find_expired_map_reset]
  unfold engineBegin
  exact map_reset_idem _

/-- C8: running find_expired a second time on the list the first call
mutated in place (sorted, keep flags set) returns the identical expired
list: the sort is stable on the already-sorted list and the keep flags
are reset before recomputation, so the engine is deterministic in the
snapshot ages; the rule list is a read-only input of the embedding, as in
the source, which never writes to it. -/
theorem c8_determinism (rules : List Rule) (xs : List SnapK) :
    (find_expired rules ((find_expired rules xs).1)).2
      = (find_expired rules xs).2 := by
  have hbegin : engineBegin ((find_expired rules xs).1) = engineBegin xs := by
    unfold engineBegin
    rw [show sortSnaps ((find_expired rules xs).1)
        = (find_expired rules xs).1 from
      List.Sorted.insertionSort_eq (find_expired_sorted rules xs)]
    rw [find_expired_map_reset]
    rfl
  have hgen : ∀ ys : List SnapK, engineBegin ys = engineBegin xs →
      find_expired rules ys = find_expired rules xs := by
    intro ys h
    unfold find_expired
    rw [h]
  rw [hgen _ hbegin]

/-- Everything present in the second run's list is present in the first
run's list. -/
theorem Sim.mem_left {L : Int} {fin c1 c2 : List SnapK}
    (h : Sim L fin c1 c2) : ∀ s ∈ c2, s ∈ c1 := by
  induction h with
  | nil => exact fun s hs => absurd hs (List.not_mem_nil s)
  | keep hQ hrest ih =>
    intro s hs
    rcases List.mem_cons.mp hs with rfl | hs2
    · exact List.mem_cons_self _ _
    · exact List.mem_cons_of_mem _ (ih s hs2)
  | drop hQ hrest ih =>
    exact fun s hs => List.mem_cons_of_mem _ (ih s hs)

/-- MarksLE is reflexive. -/
theorem marksLE_refl (l : List SnapK) : MarksLE l l := by
  induction l with
  | nil => exact List.Forall₂.nil
  | cons x xs ih => exact List.Forall₂.cons (fun h => h) ih

/-- MarksLE is transitive. -/
theorem marksLE_trans {a b c : List SnapK} (h1 : MarksLE a b)
    (h2 : MarksLE b c) : MarksLE a c := by
  induction h1 generalizing c with
  | nil => cases h2; exact List.Forall₂.nil
  | cons hab hrest ih =>
    cases h2 with
    | cons hbc hrest2 =>
      exact List.Forall₂.cons (fun h => hbc (hab h)) (ih hrest2)

/-- markFirst only adds keep flags. -/
theorem markFirst_marksLE {thr ideal k : Int} :
    ∀ (l : List SnapK), MarksLE l (markFirst thr ideal k l) := by
  intro l
  induction l with
  | nil => exact List.Forall₂.nil
  | cons x xs ih =>
    by_cases hc : (isAff thr x && decide (affKey ideal x = k)) = true
    · rw [markFirst, if_pos hc]
      exact List.Forall₂.cons (fun _ => rfl) (marksLE_refl xs)
    · rw [markFirst, if_neg hc]
      exact List.Forall₂.cons (fun h => h) ih

/-- markBest only adds keep flags. -/
theorem markBest_marksLE {thr ideal : Int} (l : List SnapK) :
    MarksLE l (markBest thr ideal l) := by
  unfold markBest
  cases bestKey thr ideal l with
  | none => exact marksLE_refl l
  | some k => exact markFirst_marksLE l

/-- One slot only adds keep flags. -/
theorem runSlot_marksLE (r : Rule) (st : EngineState) (i : Nat) :
    MarksLE st.snaps (runSlot r st i).snaps := by
  unfold runSlot
  by_cases hany : st.snaps.any (isAff r.age) = true
  · simp only [hany, if_true]
    exact markBest_marksLE _
  · simp only [hany]
    exact marksLE_refl _

/-- A fold of slots only adds keep flags. -/
theorem slots_marksLE (r : Rule) :
    ∀ (is : List Nat) (st : EngineState),
      MarksLE st.snaps ((is.foldl (runSlot r) st).snaps) := by
  intro is
  induction is with
  | nil => exact fun st => marksLE_refl _
  | cons i is ih =>
    intro st
    rw [List.foldl_cons]
    exact marksLE_trans (runSlot_marksLE r st i) (ih (runSlot r st i))

/-- The whole rule loop only adds keep flags. -/
theorem runRules_marksLE (rules : List Rule) :
    ∀ (st : EngineState), MarksLE st.snaps ((runRules rules st).snaps) := by
  induction rules with
  | nil => exact fun st => marksLE_refl _
  | cons r rs ih =>
    intro st
    have h1 : MarksLE st.snaps ((runRule st r).snaps) := by
      unfold runRule
      exact slots_marksLE r _ st
    have h2 := ih (runRule st r)
    rw [runRules, List.foldl_cons]
    exact marksLE_trans h1 h2

/-- Core simulation step: if the first run marks its nearest affected
snapshot (key k) and that snapshot survives (ensured by MarksLE into the
final list, whose non-survivors are never marked), then the second run
marks the aligned snapshot, the relation is preserved, and the second
list also attains key k. -/
theorem markFirst_sim {L thr ideal k : Int} :
    ∀ {fin c1 c2 : List SnapK},
      Sim L fin c1 c2 →
      MarksLE (markFirst thr ideal k c1) fin →
      (∃ s ∈ c1, isAff thr s = true ∧ affKey ideal s = k) →
      (∀ s ∈ c1, isAff thr s = true → k ≤ affKey ideal s) →
      Sim L fin (markFirst thr ideal k c1) (markFirst thr ideal k c2)
        ∧ ∃ s ∈ c2, isAff thr s = true ∧ affKey ideal s = k := by
  intro fin c1 c2 hsim
  induction hsim with
  | nil =>
    rintro _ ⟨s, hs, _⟩ _
    exact absurd hs (List.not_mem_nil s)
  | @keep f c fs cs ds hQ hrest ih =>
    intro hml hex hmin
    by_cases hc : (isAff thr c && decide (affKey ideal c = k)) = true
    · rw [markFirst, if_pos hc]
      rw [markFirst, if_pos hc]
      have hc2 : isAff thr c = true ∧ affKey ideal c = k := by simpa using hc
      exact ⟨Sim.keep hQ hrest,
        c, List.mem_cons_self _ _, hc2.1, hc2.2⟩
    · rw [markFirst, if_neg hc] at hml
      rw [markFirst, if_neg hc]
      rw [markFirst, if_neg hc]
      cases hml with
      | cons hhead htail =>
        have hex2 : ∃ s ∈ cs, isAff thr s = true ∧ affKey ideal s = k := by
          obtain ⟨s, hs, h1, h2⟩ := hex
          rcases List.mem_cons.mp hs with rfl | hs2
          · exact absurd (by simp [h1, h2]) hc
          · exact ⟨s, hs2, h1, h2⟩
        have hmin2 : ∀ s ∈ cs, isAff thr s = true → k ≤ affKey ideal s :=
          fun s hs => hmin s (List.mem_cons_of_mem _ hs)
        obtain ⟨hsim2, hex3⟩ := ih htail hex2 hmin2
        refine ⟨Sim.keep hQ hsim2, ?_⟩
        obtain ⟨s, hs, h1, h2⟩ := hex3
        exact ⟨s, List.mem_cons_of_mem _ hs, h1, h2⟩
  | @drop f c fs cs ds hQ hrest ih =>
    intro hml hex hmin
    by_cases hc : (isAff thr c && decide (affKey ideal c = k)) = true
    · exfalso
      rw [markFirst, if_pos hc] at hml
      cases hml with
      | cons hhead _ =>
        exact hQ (Or.inl (hhead rfl))
    · rw [markFirst, if_neg hc] at hml
      rw [markFirst, if_neg hc]
      cases hml with
      | cons hhead htail =>
        have hex2 : ∃ s ∈ cs, isAff thr s = true ∧ affKey ideal s = k := by
          obtain ⟨s, hs, h1, h2⟩ := hex
          rcases List.mem_cons.mp hs with rfl | hs2
          · exact absurd (by simp [h1, h2]) hc
          · exact ⟨s, hs2, h1, h2⟩
        have hmin2 : ∀ s ∈ cs, isAff thr s = true → k ≤ affKey ideal s :=
          fun s hs => hmin s (List.mem_cons_of_mem _ hs)
        obtain ⟨hsim2, hex3⟩ := ih htail hex2 hmin2
        exact ⟨Sim.drop hQ hsim2, hex3⟩

/-- Simulation across one slot: equal largest_ideal_age and rule_start
are preserved, and the second run fires the slot exactly when the first
does, marking the aligned snapshot. -/
theorem runSlot_sim {L : Int} {fin : List SnapK} (r : Rule) (i : Nat)
    (st1 st2 : EngineState)
    (hL : st2.L = st1.L) (hst : st2.start = st1.start)
    (hsim : Sim L fin st1.snaps st2.snaps)
    (hml : MarksLE (runSlot r st1 i).snaps fin) :
    (runSlot r st2 i).L = (runSlot r st1 i).L
    ∧ (runSlot r st2 i).start = (runSlot r st1 i).start
    ∧ Sim L fin (runSlot r st1 i).snaps (runSlot r st2 i).snaps := by
  by_cases hany1 : st1.snaps.any (isAff r.age) = true
  · obtain ⟨s0, hs0, hs0a⟩ := List.any_eq_true.mp hany1
    cases hk : bestKey r.age (idealOf r st1.start i) st1.snaps with
    | none => exact absurd (bestKey_none hk s0 hs0) (by simp [hs0a])
    | some k =>
      have hrs1 : runSlot r st1 i
          = { snaps := markFirst r.age (idealOf r st1.start i) k st1.snaps,
              L := max st1.L (idealOf r st1.start i), start := st1.start } := by
        simp [runSlot, hany1, markBest, hk]
      rw [hrs1] at hml
      have hmin : ∀ s ∈ st1.snaps, isAff r.age s = true →
          k ≤ affKey (idealOf r st1.start i) s := bestKey_le hk
      obtain ⟨hsim2, hex2⟩ := markFirst_sim hsim hml (bestKey_mem hk) hmin
      have hmin2 : ∀ s ∈ st2.snaps, isAff r.age s = true →
          k ≤ affKey (idealOf r st1.start i) s :=
        fun s hs => hmin s (Sim.mem_left hsim s hs)
      have hk2 : bestKey r.age (idealOf r st1.start i) st2.snaps = some k :=
        bestKey_eq_some hex2 hmin2
      have hany2 : st2.snaps.any (isAff r.age) = true := by
        obtain ⟨s, hs, h1, _⟩ := hex2
        exact List.any_eq_true.mpr ⟨s, hs, h1⟩
      have hrs2 : runSlot r st2 i
          = { snaps := markFirst r.age (idealOf r st1.start i) k st2.snaps,
              L := max st1.L (idealOf r st1.start i), start := st1.start } := by
        simp [runSlot, hany2, markBest, hst, hL, hk2]
      rw [hrs1, hrs2]
      exact ⟨rfl, rfl, hsim2⟩
  · have hany2 : st2.snaps.any (isAff r.age) = false := by
      cases h2 : st2.snaps.any (isAff r.age)
      · rfl
      · obtain ⟨s, hs, ha⟩ := List.any_eq_true.mp h2
        exact absurd (List.any_eq_true.mpr ⟨s, Sim.mem_left hsim s hs, ha⟩)
          hany1
    have hrs1 : runSlot r st1 i = st1 := by simp [runSlot, hany1]
    have hrs2 : runSlot r st2 i = st2 := by simp [runSlot, hany2]
    rw [hrs1, hrs2]
    exact ⟨hL, hst, hsim⟩

/-- Simulation across a fold of slots. -/
theorem slots_sim {L : Int} {fin : List SnapK} (r : Rule) :
    ∀ (is : List Nat) (st1 st2 : EngineState),
      st2.L = st1.L → st2.start = st1.start →
      Sim L fin st1.snaps st2.snaps →
      MarksLE ((is.foldl (runSlot r) st1).snaps) fin →
      ((is.foldl (runSlot r) st2).L = (is.foldl (runSlot r) st1).L
        ∧ (is.foldl (runSlot r) st2).start
            = (is.foldl (runSlot r) st1).start
        ∧ Sim L fin ((is.foldl (runSlot r) st1).snaps)
            ((is.foldl (runSlot r) st2).snaps)) := by
  intro is
  induction is with
  | nil => exact fun st1 st2 hL hst hsim _ => ⟨hL, hst, hsim⟩
  | cons i is ih =>
    intro st1 st2 hL hst hsim hml
    simp only [List.foldl_cons] at hml ⊢
    have hml1 : MarksLE (runSlot r st1 i).snaps fin :=
      marksLE_trans (slots_marksLE r is (runSlot r st1 i)) hml
    obtain ⟨hL2, hst2, hsim2⟩ := runSlot_sim r i st1 st2 hL hst hsim hml1
    exact ih (runSlot r st1 i) (runSlot r st2 i) hL2 hst2 hsim2 hml

/-- Simulation across the whole rule loop: the second run on the
survivors reaches the same largest_ideal_age as the first and marks the
aligned snapshots. -/
theorem runRules_sim {L : Int} (rules : List Rule) :
    ∀ (st1 st2 : EngineState) (fin : List SnapK),
      st2.L = st1.L → st2.start = st1.start →
      Sim L fin st1.snaps st2.snaps →
      MarksLE ((runRules rules st1).snaps) fin →
      ((runRules rules st2).L = (runRules rules st1).L
        ∧ Sim L fin ((runRules rules st1).snaps)
            ((runRules rules st2).snaps)) := by
  induction rules with
  | nil => exact fun st1 st2 fin hL _ hsim _ => ⟨hL, hsim⟩
  | cons r rs ih =>
    intro st1 st2 fin hL hst hsim hml
    have hrr1 : runRules (r :: rs) st1 = runRules rs (runRule st1 r) := rfl
    have hrr2 : runRules (r :: rs) st2 = runRules rs (runRule st2 r) := rfl
    rw [hrr1] at hml
    rw [hrr1, hrr2]
    have hml_slots : MarksLE
        (((List.range r.number.toNat).foldl (runSlot r) st1).snaps) fin := by
      have h1 : MarksLE ((runRule st1 r).snaps)
          ((runRules rs (runRule st1 r)).snaps) := runRules_marksLE rs _
      exact marksLE_trans h1 hml
    obtain ⟨hL2, hst2, hsim2⟩ := slots_sim r (List.range r.number.toNat)
      st1 st2 hL hst hsim hml_slots
    have hL3 : (runRule st2 r).L = (runRule st1 r).L := hL2
    have hst3 : (runRule st2 r).start = (runRule st1 r).start := rfl
    have hsim3 : Sim L fin ((runRule st1 r).snaps)
        ((runRule st2 r).snaps) := hsim2
    exact ih (runRule st1 r) (runRule st2 r) fin hL3 hst3 hsim3 hml

/-- Filtering the net-marked survivors and resetting equals filtering the
pre-net list by the survival predicate and resetting. -/
theorem net_filter_reset (L : Int) :
    ∀ (l : List SnapK),
      ((applyNet L l).filter (fun s => s.keep)).map resetK
        = (l.filter (fun s => s.keep || decide (L < s.age))).map resetK := by
  intro l
  induction l with
  | nil => rfl
  | cons x xs ih =>
    have hstep : applyNet L (x :: xs)
        = (if L < x.age then { x with keep := true } else x)
          :: applyNet L xs := rfl
    rw [hstep]
    by_cases h : L < x.age
    · have hd : decide (L < x.age) = true := by simpa using h
      rw [if_pos h]
      simp [List.filter_cons, hd, resetK, ih]
    · have hd : decide (L < x.age) = false := by simpa using h
      rw [if_neg h]
      cases hk : x.keep
      · simp [List.filter_cons, hk, hd, ih]
      · simp [List.filter_cons, hk, hd, resetK, ih]

/-- The initial simulation instance: the reset first-run list against the
reset survivors. -/
theorem sim_filter_reset (L : Int) :
    ∀ (fin : List SnapK),
      Sim L fin (fin.map resetK)
        ((fin.filter (fun f => f.keep || decide (L < f.age))).map resetK) := by
  intro fin
  induction fin with
  | nil => exact Sim.nil
  | cons f fs ih =>
    by_cases hQ : (f.keep || decide (L < f.age)) = true
    · have hsurv : survQ L f := by
        have hQ2 : f.keep = true ∨ decide (L < f.age) = true := by
          simpa using hQ
        rcases hQ2 with h | h
        · exact Or.inl h
        · exact Or.inr (by simpa using h)
      simp only [List.filter_cons, hQ, if_true, List.map_cons]
      exact Sim.keep hsurv ih
    · have hns : ¬ survQ L f := by
        intro hcon
        apply hQ
        rcases hcon with h | h
        · simp [h]
        · simp [h]
      simp only [List.filter_cons, hQ, if_false, List.map_cons,
        Bool.false_eq_true]
      exact Sim.drop hns ih

/-- At the end of the second run every remaining snapshot survives:
aligned with the first run's final list, each present entry equals a
surviving entry of that list. -/
theorem sim_self {L : Int} :
    ∀ {fin c1 c2 : List SnapK}, Sim L fin c1 c2 → c1 = fin →
      ∀ s ∈ c2, survQ L s := by
  intro fin c1 c2 h
  induction h with
  | nil => intro _ s hs; exact absurd hs (List.not_mem_nil s)
  | @keep f c fs cs ds hQ hrest ih =>
    intro heq s hs
    injection heq with h1 h2
    rcases List.mem_cons.mp hs with rfl | hs2
    · rw [h1]
      exact hQ
    · exact ih h2 s hs2
  | @drop f c fs cs ds hQ hrest ih =>
    intro heq s hs
    injection heq with h1 h2
    exact ih h2 s hs

/-- A list all of whose entries survive yields an empty expired list
after the net. -/
theorem all_kept_net (K : Int) :
    ∀ (l : List SnapK), (∀ s ∈ l, survQ K s) →
      (applyNet K l).filter (fun s => !s.keep) = [] := by
  intro l
  induction l with
  | nil => exact fun _ => rfl
  | cons x xs ih =>
    intro hall
    have hstep : applyNet K (x :: xs)
        = (if K < x.age then { x with keep := true } else x)
          :: applyNet K xs := rfl
    rw [hstep]
    by_cases h : K < x.age
    · rw [if_pos h]
      simp only [List.filter_cons]
      simpa using ih (fun s hs => hall s (List.mem_cons_of_mem _ hs))
    · rw [if_neg h]
      have hx : x.keep = true := by
        rcases hall x (List.mem_cons_self _ _) with hk | hage
        · exact hk
        · exact absurd hage h
      simp only [List.filter_cons, hx]
      simpa [hx] using ih (fun s hs => hall s (List.mem_cons_of_mem _ hs))

/-- C3: cleanup is idempotent.  For every rule list and snapshot list,
running find_expired again on the snapshots kept by a first run (ages
unchanged) expires nothing: the second run re-marks exactly the aligned
snapshots, reaches the same largest_ideal_age, and the safety net covers
the rest. -/
theorem c3_cleanup_idempotent (rules : List Rule) (xs : List SnapK) :
    (find_expired rules
        (((find_expired rules xs).1).filter (fun s => s.keep))).2 = [] := by
  have hsortsurv : sortSnaps (((find_expired rules xs).1).filter
      (fun s => s.keep)) = ((find_expired rules xs).1).filter
        (fun s => s.keep) :=
    List.Sorted.insertionSort_eq
      ((find_expired_sorted rules xs).filter _)
  have ht0 : (engineBegin (((find_expired rules xs).1).filter
      (fun s => s.keep))).snaps
      = ((runRules rules (engineBegin xs)).snaps.filter
          (fun f => f.keep
            || decide ((runRules rules (engineBegin xs)).L < f.age))).map
          resetK := by
    unfold engineBegin
    rw [hsortsurv]
    exact net_filter_reset _ _
  have hs0 : ((runRules rules (engineBegin xs)).snaps).map resetK
      = (engineBegin xs).snaps := by
    rw [runRules_map_reset]
    unfold engineBegin
    exact map_reset_idem _
  have hsim0 : Sim (runRules rules (engineBegin xs)).L
      ((runRules rules (engineBegin xs)).snaps)
      ((engineBegin xs).snaps)
      ((engineBegin (((find_expired rules xs).1).filter
        (fun s => s.keep))).snaps) := by
    rw [ht0, ← hs0]
    exact sim_filter_reset _ _
  obtain ⟨hL2, hsim2⟩ := runRules_sim rules (engineBegin xs)
    (engineBegin (((find_expired rules xs).1).filter (fun s => s.keep)))
    ((runRules rules (engineBegin xs)).snaps) rfl rfl hsim0
    (marksLE_refl _)
  have hall := sim_self hsim2 rfl
  have hshape : (find_expired rules
      (((find_expired rules xs).1).filter (fun s => s.keep))).2
      = (applyNet ((runRules rules (engineBegin
          (((find_expired rules xs).1).filter (fun s => s.keep)))).L)
          ((runRules rules (engineBegin
            (((find_expired rules xs).1).filter (fun s => s.keep)))).snaps)
          ).filter (fun s => !s.keep) := rfl
  rw [hshape, hL2]
  exact all_kept_net _ _ hall

/-- C10: with a single rule of threshold one day and keep count 1, and one
existing snapshot aged eleven hours, a successful take_snapshot creates
the new directory, and the cleanup pass of the same run computes the ideal
age twelve hours, keeps the eleven-hour snapshot as nearest, expires the
just-taken snapshot (age 0 at listing time), and deletes it. -/
theorem c10_fresh_snapshot_expired :
    take_snapshot_fs ["old"] "new" [true] = ["old", "new"]
    ∧ ((find_expired [⟨86400000000, 1⟩]
        [⟨"new", 0, false⟩, ⟨"old", 39600000000, false⟩]).2).map
          (fun s => s.name) = ["new"]
    ∧ perform_cleanup_run (fun _ => true)
        (take_snapshot_fs ["old"] "new" [true])
        [([⟨86400000000, 1⟩],
          [⟨"new", 0, false⟩, ⟨"old", 39600000000, false⟩])]
      = (["old"], none) := by
  decide

end Snapshotter
